import Mathlib

/-!
Verification of the tidyviz tidy-data layer: the reshape and validate
operations over in-memory tabular survey data.  The checked sources of the
repository contain the test suites and example scripts of these operations
but not the `tidyviz.tidy.reshape` and `tidyviz.tidy.validate` modules
themselves, so every operation below is modelled from the specification
text (sections 3, 4.1, 4.2, 7 and 8 of the spec) and cross-checked against
the behaviour pinned down by the test files.

Strings of the data layer are embedded as lists of characters, numeric
values as rationals, and the missing sentinel as a distinguished cell
constructor.  A table is an explicit row count together with an ordered
association list from column name to column data.
-/

deriving instance DecidableEq for Except

abbrev Str := List Char

/-- A cell of a tabular dataset: the missing sentinel, text, a numeric
value, or a boolean. -/
inductive Cell where
  | na : Cell
  | str : Str → Cell
  | num : ℚ → Cell
  | boolean : Bool → Cell
deriving DecidableEq

/-- Tabular dataset: an explicit row count plus ordered named columns.
Well-formed tables have every column of length `nrows`. -/
structure Table where
  nrows : Nat
  cols : List (Str × List Cell)
deriving DecidableEq

/-- Column lookup by name (first match). -/
def getCol (t : Table) (name : Str) : Option (List Cell) :=
  (t.cols.find? (fun p => decide (p.1 = name))).map (fun p => p.2)

/-- The cell of a column at row `i`; out-of-range reads give the missing
sentinel. -/
def cellAt (col : List Cell) (i : Nat) : Cell :=
  col[i]?.getD Cell.na

/-- The ordered list of column names of a table. -/
def colNames (t : Table) : List Str :=
  t.cols.map (fun p => p.1)

/-- Every column stores exactly `nrows` cells. -/
def wellFormed (t : Table) : Prop :=
  ∀ p ∈ t.cols, p.2.length = t.nrows

instance (t : Table) : Decidable (wellFormed t) := by
  unfold wellFormed; infer_instance

/-- Add columns to a table; a new column replaces any existing column of
the same name (assignment semantics of the underlying dataframe). -/
def addColumns (t : Table) (new : List (Str × List Cell)) : Table :=
  ⟨t.nrows, t.cols.filter (fun p => decide (p.1 ∉ new.map (fun q => q.1))) ++ new⟩

/-- Remove every column with the given name. -/
def eraseCol (t : Table) (name : Str) : Table :=
  ⟨t.nrows, t.cols.filter (fun p => decide (p.1 ≠ name))⟩

/-- Error taxonomy of the tidy layer (spec section 7). -/
inductive TidyError where
  | columnNotFound : Str → TidyError
  | columnsNotFound : List Str → TidyError
  | invalidOption : Str → TidyError
  | missingCondition : TidyError
deriving DecidableEq

/-! ### Tokenization of delimited multi-select text -/

/-- Whitespace test for trimming. -/
def isWS (c : Char) : Bool := c.isWhitespace

/-- Trim whitespace from both ends of a character list. -/
def trim (s : Str) : Str :=
  List.rdropWhile isWS (s.dropWhile isWS)

/-- Split a character list on a separator character; always returns at
least one (possibly empty) piece. -/
def splitOnChar (sep : Char) : Str → List Str
  | [] => [[]]
  | c :: rest =>
    let r := splitOnChar sep rest
    if c = sep then [] :: r
    else
      match r with
      | [] => [[c]]
      | h :: tl => (c :: h) :: tl

/-- Modelled from the spec: a multi-select cell is "a string of
zero-or-more tokens joined by `separator` (whitespace around tokens is
trimmed)"; empty tokens are discarded. -/
def tokenize (sep : Char) (s : Str) : List Str :=
  ((splitOnChar sep s).map trim).filter (fun x => decide (x ≠ []))

/-- Token set of a cell: a missing cell has no tokens. -/
def cellTokens (sep : Char) : Cell → List Str
  | Cell.str s => tokenize sep s
  | _ => []

/-- Deduplicate keeping the first occurrence of each element, skipping
elements already seen. -/
def dedupFirstAux [DecidableEq α] (seen : List α) : List α → List α
  | [] => []
  | a :: l =>
    if a ∈ seen then dedupFirstAux seen l
    else a :: dedupFirstAux (a :: seen) l

/-- Deduplicate a list keeping first occurrences (first-observed order). -/
def dedupFirst [DecidableEq α] (l : List α) : List α :=
  dedupFirstAux [] l

/-- All distinct tokens observed across the rows of a column, in
first-observed order. -/
def observedTokens (sep : Char) (cells : List Cell) : List Str :=
  dedupFirst ((cells.map (cellTokens sep)).foldr (· ++ ·) [])

/-- Indicator column name `<prefix or column>_<token>` (spec 4.1). -/
def colIndicatorName (pre : Option Str) (column : Str) (tk : Str) : Str :=
  (pre.getD column) ++ '_' :: tk

/-- Binary indicator column of one token: 1 where the row's token set
contains the token, 0 otherwise (missing rows never get a 1). -/
def indicatorCol (sep : Char) (tk : Str) (cells : List Cell) : List Cell :=
  cells.map (fun cl => if tk ∈ cellTokens sep cl then Cell.num 1 else Cell.num 0)

/-- Modelled from the spec: `expand_multiple_choice(table, column, sep,
prefix, keep_original)` of the absent `tidyviz.tidy.reshape` module.
Fails with `ColumnNotFoundError` if `column` is absent; otherwise adds one
binary indicator column per distinct observed token, in first-observed
order, and drops the source column unless `keep_original` is true. -/
def expand_multiple_choice (t : Table) (column : Str) (sep : Char := ',')
    (pre : Option Str := none) (keepOriginal : Bool := false) :
    Except TidyError Table :=
  match getCol t column with
  | none => Except.error (TidyError.columnNotFound column)
  | some cells =>
    let toks := observedTokens sep cells
    let base := if keepOriginal then t else eraseCol t column
    Except.ok (addColumns base
      (toks.map (fun tk => (colIndicatorName pre column tk, indicatorCol sep tk cells))))

/-- Option name derived from an indicator column name: everything before
and including the first underscore is stripped; a name with no underscore
is kept whole (spec 4.1). -/
def stripOptName (name : Str) : Str :=
  let r := name.dropWhile (fun c => decide (c ≠ '_'))
  if r.isEmpty then name else r.tail

/-- Join pieces with a separator character. -/
def intercalateSep (sep : Char) : List Str → Str
  | [] => []
  | [s] => s
  | s :: rest => s ++ sep :: intercalateSep sep rest

/-- Truthiness of an indicator cell (a cell is "truthy (1) or falsy (0)"). -/
def truthy : Cell → Bool
  | Cell.na => false
  | Cell.num q => decide (q ≠ 0)
  | Cell.boolean b => b
  | Cell.str s => !s.isEmpty

/-- Modelled from the spec: `collapse_multiple_choice(table, columns,
output_column, sep, drop_original)` of the absent `tidyviz.tidy.reshape`
module.  For each row the option names of the truthy indicator columns
are collected in the given column order and joined with the separator;
a row selecting zero columns gets the missing sentinel. -/
def collapse_multiple_choice (t : Table) (columns : List Str) (outCol : Str)
    (sep : Char := ',') (dropOriginal : Bool := true) :
    Except TidyError Table :=
  if columns.all (fun c => (getCol t c).isSome) then
    let colsData := columns.map (fun c => (c, (getCol t c).getD []))
    let newCol := (List.range t.nrows).map (fun i =>
      let names := (colsData.filter (fun p => truthy (cellAt p.2 i))).map
        (fun p => stripOptName p.1)
      if names.isEmpty then Cell.na else Cell.str (intercalateSep sep names))
    let base :=
      if dropOriginal then
        Table.mk t.nrows (t.cols.filter (fun p => decide (p.1 ∉ columns)))
      else t
    Except.ok (addColumns base [(outCol, newCol)])
  else
    Except.error (TidyError.columnsNotFound
      (columns.filter (fun c => !(getCol t c).isSome)))

/-! ### Validation engine -/

/-- A value is valid if missing, or numerically within `[minV, maxV]`
inclusive; a present non-numeric value is not in range. -/
def cellValid (minV maxV : ℚ) : Cell → Bool
  | Cell.na => true
  | Cell.num q => decide (minV ≤ q ∧ q ≤ maxV)
  | Cell.str _ => false
  | Cell.boolean _ => false

/-- Name of the added validity column `<column>_valid`. -/
def validColName (c : Str) : Str :=
  c ++ '_' :: ['v', 'a', 'l', 'i', 'd']

/-- Keep the rows of one column selected by a boolean mask, in order. -/
def applyMask : List Bool → List Cell → List Cell
  | b :: bs, x :: xs => if b then x :: applyMask bs xs else applyMask bs xs
  | _, _ => []

/-- Keep the rows of a table selected by a boolean mask, in order. -/
def filterRows (t : Table) (keep : List Bool) : Table :=
  ⟨keep.countP (fun b => b), t.cols.map (fun p => (p.1, applyMask keep p.2))⟩

def hFlag : Str := ['f', 'l', 'a', 'g']
def hRemove : Str := ['r', 'e', 'm', 'o', 'v', 'e']
def hNan : Str := ['n', 'a', 'n']

/-- Modelled from the spec: `check_response_range(table, column, min_val,
max_val, handle_invalid)` of the absent `tidyviz.tidy.validate` module.
`flag` returns the table plus a `<column>_valid` boolean column and the
invalid-row mask; `remove` drops invalid rows; `nan` overwrites invalid
cells with the missing sentinel; any other option is an error. -/
def check_response_range (t : Table) (column : Str) (minV maxV : ℚ)
    (handleInvalid : Str := hFlag) :
    Except TidyError (Table × Option (List Bool)) :=
  match getCol t column with
  | none => Except.error (TidyError.columnNotFound column)
  | some cells =>
    if handleInvalid = hFlag then
      let validMask := cells.map (cellValid minV maxV)
      Except.ok (addColumns t [(validColName column, validMask.map Cell.boolean)],
        some (validMask.map (fun b => !b)))
    else if handleInvalid = hRemove then
      Except.ok (filterRows t (cells.map (cellValid minV maxV)), none)
    else if handleInvalid = hNan then
      Except.ok (addColumns t
        [(column, cells.map (fun cl => if cellValid minV maxV cl then cl else Cell.na))],
        none)
    else Except.error (TidyError.invalidOption handleInvalid)

/-- Missing-pattern report (spec section 3). -/
structure MissingReport where
  missingCounts : List (Str × Nat)
  missingRates : List (Str × ℚ)
  highMissingCols : List Str
  totalRows : Nat
  completeRows : Nat
  rowsWithMissing : Nat
deriving DecidableEq

/-- Number of missing cells in one column. -/
def colMissingCount (col : List Cell) : Nat :=
  col.countP (fun cl => decide (cl = Cell.na))

/-- A row is complete when none of the analyzed columns is missing there. -/
def rowComplete (t : Table) (cs : List Str) (i : Nat) : Bool :=
  cs.all (fun c => decide (cellAt ((getCol t c).getD []) i ≠ Cell.na))

/-- Modelled from the spec: `detect_missing_patterns(table, columns,
threshold)` of the absent `tidyviz.tidy.validate` module.  Reports
per-column missing counts and rates (count / N), the columns whose rate
strictly exceeds the threshold, and row-level completeness counts. -/
def detect_missing_patterns (t : Table) (columns : Option (List Str) := none)
    (threshold : ℚ := 1/2) : MissingReport :=
  let cs := columns.getD (colNames t)
  ⟨cs.map (fun c => (c, colMissingCount ((getCol t c).getD []))),
   cs.map (fun c => (c, (colMissingCount ((getCol t c).getD []) : ℚ) / (t.nrows : ℚ))),
   cs.filter (fun c =>
     decide ((colMissingCount ((getCol t c).getD []) : ℚ) / (t.nrows : ℚ) > threshold)),
   t.nrows,
   (List.range t.nrows).countP (fun i => rowComplete t cs i),
   (List.range t.nrows).countP (fun i => !rowComplete t cs i)⟩

/-- Number of distinct non-missing values across the column block in row
`i`. -/
def rowBlockDistinct (t : Table) (cs : List Str) (i : Nat) : Nat :=
  (dedupFirst ((cs.map (fun c => cellAt ((getCol t c).getD []) i)).filter
    (fun cl => decide (cl ≠ Cell.na)))).length

/-- Modelled from the spec: `flag_straight_liners(table, columns,
threshold)` of the absent `tidyviz.tidy.validate` module.  A row is
flagged iff its distinct non-missing value count over the block is at
least 1 and at most `threshold + 1`; a row entirely missing over the
block is not flagged. -/
def flag_straight_liners (t : Table) (cs : List Str) (threshold : Nat := 0) :
    Except TidyError (List Bool) :=
  if cs.all (fun c => (getCol t c).isSome) then
    Except.ok ((List.range t.nrows).map (fun i =>
      decide (1 ≤ rowBlockDistinct t cs i ∧ rowBlockDistinct t cs i ≤ threshold + 1)))
  else
    Except.error (TidyError.columnsNotFound (cs.filter (fun c => !(getCol t c).isSome)))

/-- The straight-liner mask exactly as worded by the data-model section of
the spec: true iff the distinct non-missing value count is at most the
configured threshold. -/
def straightMaskPerDataModel (t : Table) (cs : List Str) (threshold : Nat) :
    List Bool :=
  (List.range t.nrows).map (fun i => decide (rowBlockDistinct t cs i ≤ threshold))

/-- The straight-liner mask with the boundary semantics of the operation
section of the spec and of the tests: flagged iff the distinct count is in
`[1, threshold + 1]`. -/
def straightMaskCorrected (t : Table) (cs : List Str) (threshold : Nat) :
    List Bool :=
  (List.range t.nrows).map (fun i =>
    decide (1 ≤ rowBlockDistinct t cs i ∧ rowBlockDistinct t cs i ≤ threshold + 1))

def mIqr : Str := ['i', 'q', 'r']
def mMedian : Str := ['m', 'e', 'd', 'i', 'a', 'n']
def mPercentile : Str := ['p', 'e', 'r', 'c', 'e', 'n', 't', 'i', 'l', 'e']

/-- Insert a rational into a sorted list. -/
def insertSorted (x : ℚ) : List ℚ → List ℚ
  | [] => [x]
  | y :: t => if x ≤ y then x :: y :: t else y :: insertSorted x t

/-- Insertion sort of rationals. -/
def sortRat (l : List ℚ) : List ℚ :=
  l.foldr insertSorted []

/-- Linear-interpolation quantile of a sorted nonempty list. -/
def quantileAt (v : List ℚ) (p : ℚ) : ℚ :=
  if v.isEmpty then 0
  else
    let n := v.length
    let h : ℚ := p * ((n : ℚ) - 1)
    let i : Nat := (Int.floor h).toNat
    let lo := v.getD i 0
    let hi := v.getD (min (i + 1) (n - 1)) 0
    lo + (h - (i : ℚ)) * (hi - lo)

/-- The numeric (present) values of a column. -/
def numericVals (cells : List Cell) : List ℚ :=
  cells.filterMap (fun cl =>
    match cl with
    | Cell.num q => some q
    | _ => none)

/-- Derived speeder threshold from the column's own present values
(spec 4.2): lower IQR fence, half the median, or the 10th percentile. -/
def derivedThreshold (method : Str) (cells : List Cell) : ℚ :=
  let v := sortRat (numericVals cells)
  if method = mIqr then
    let q1 := quantileAt v (1/4)
    let q3 := quantileAt v (3/4)
    q1 - (3/2) * (q3 - q1)
  else if method = mMedian then (1/2) * quantileAt v (1/2)
  else quantileAt v (1/10)

/-- Speeder mask: rows whose present numeric value is strictly below the
threshold; missing values are never flagged. -/
def speedMask (cells : List Cell) (thr : ℚ) (n : Nat) : List Bool :=
  (List.range n).map (fun i =>
    match cellAt cells i with
    | Cell.num q => decide (q < thr)
    | _ => false)

/-- Modelled from the spec: `detect_speeders(table, column, threshold,
method)` of the absent `tidyviz.tidy.validate` module.  A supplied
threshold is a manual override under which `method` is ignored; otherwise
the threshold is derived by the named method, which must be one of
`iqr`, `median`, `percentile`. -/
def detect_speeders (t : Table) (column : Str) (threshold : Option ℚ := none)
    (method : Str := mIqr) : Except TidyError (List Bool) :=
  match getCol t column with
  | none => Except.error (TidyError.columnNotFound column)
  | some cells =>
    match threshold with
    | some thr => Except.ok (speedMask cells thr t.nrows)
    | none =>
      if method = mIqr ∨ method = mMedian ∨ method = mPercentile then
        Except.ok (speedMask cells (derivedThreshold method cells) t.nrows)
      else Except.error (TidyError.invalidOption method)

/-- A consistency rule: a name, an optional row predicate, and a
documentation-only list of column dependencies. -/
structure Rule where
  name : Str
  condition : Option ((Str → Option Cell) → Bool)
  columns : List Str := []

/-- The view of row `i` handed to rule predicates: cell lookup by column
name on the original input table. -/
def rowView (t : Table) (i : Nat) : Str → Option Cell :=
  fun name => (getCol t name).map (fun col => cellAt col i)

/-- Output column name `consistent_<name>` of a rule. -/
def consistentName (n : Str) : Str :=
  ['c', 'o', 'n', 's', 'i', 's', 't', 'e', 'n', 't', '_'] ++ n

/-- The boolean column a rule contributes: its predicate applied to every
row of the input table. -/
def ruleColumn (t : Table) (p : (Str → Option Cell) → Bool) : List Cell :=
  (List.range t.nrows).map (fun i => Cell.boolean (p (rowView t i)))

/-- Modelled from the spec: `check_logical_consistency(table, rules)` of
the absent `tidyviz.tidy.validate` module.  Fails with
`MissingConditionError` (and returns no partial result) if any rule lacks
a condition; otherwise adds one `consistent_<name>` column per rule, each
evaluated on the original input rows, independently of the other rules. -/
def check_logical_consistency (t : Table) (rules : List Rule) :
    Except TidyError Table :=
  if rules.all (fun r => r.condition.isSome) then
    Except.ok (addColumns t (rules.map (fun r =>
      (consistentName r.name, ruleColumn t (r.condition.getD (fun _ => true))))))
  else Except.error TidyError.missingCondition

/-! ### Lemmas about column lookup and column addition -/

theorem getCol_mem {t : Table} {name : Str} {col : List Cell}
    (h : getCol t name = some col) : (name, col) ∈ t.cols := by
  unfold getCol at h
  cases hf : t.cols.find? (fun p => decide (p.1 = name)) with
  | none => rw [hf] at h; simp at h
  | some p =>
    rw [hf] at h
    have hp := List.find?_some hf
    have hm := List.mem_of_find?_eq_some hf
    simp at h hp
    rw [← h, ← hp]
    exact hm

theorem find?_filter_of_imp {α : Type _} (l : List α) (p f : α → Bool)
    (h : ∀ x, p x = true → f x = true) :
    (l.filter f).find? p = l.find? p := by
  induction l with
  | nil => rfl
  | cons a l ih =>
    by_cases hpa : p a = true
    · have hfa := h a hpa
      simp [List.filter_cons, hfa, List.find?_cons, hpa]
    · have hpa' : p a = false := by simpa using hpa
      by_cases hfa : f a = true
      · simp [List.filter_cons, hfa, List.find?_cons, hpa', ih]
      · have hfa' : f a = false := by simpa using hfa
        simp [List.filter_cons, hfa', List.find?_cons, hpa', ih]

theorem getCol_addColumns_of_not_mem {t : Table} {new : List (Str × List Cell)}
    {name : Str} (h : name ∉ new.map (fun q => q.1)) :
    getCol (addColumns t new) name = getCol t name := by
  unfold getCol addColumns
  simp only
  rw [List.find?_append]
  have hnew : new.find? (fun p => decide (p.1 = name)) = none := by
    rw [List.find?_eq_none]
    intro x hx hpx
    simp at hpx
    have hmem : x.1 ∈ new.map (fun q => q.1) := List.mem_map_of_mem (fun q => q.1) hx
    rw [hpx] at hmem
    exact h hmem
  rw [hnew]
  rw [find?_filter_of_imp]
  · cases t.cols.find? (fun p => decide (p.1 = name)) <;> rfl
  · intro x hpx
    simp at hpx
    simp [hpx, h]

theorem find?_assoc_mem {new : List (Str × List Cell)} {name : Str}
    {col : List Cell} (hnodup : (new.map (fun q => q.1)).Nodup)
    (h : (name, col) ∈ new) :
    new.find? (fun p => decide (p.1 = name)) = some (name, col) := by
  induction new with
  | nil => simp at h
  | cons a l ih =>
    rcases List.mem_cons.mp h with h1 | h1
    · rw [← h1]
      simp [List.find?_cons]
    · have ha : a.1 ≠ name := by
        intro he
        have : name ∈ l.map (fun q => q.1) := by
          simpa [he] using List.mem_map_of_mem (fun q => q.1) h1
        rw [List.map_cons, List.nodup_cons] at hnodup
        exact hnodup.1 (he ▸ this)
      rw [List.map_cons, List.nodup_cons] at hnodup
      simp [List.find?_cons, ha, ih hnodup.2 h1]

theorem getCol_addColumns_mem {t : Table} {new : List (Str × List Cell)}
    {name : Str} {col : List Cell}
    (hnodup : (new.map (fun q => q.1)).Nodup) (h : (name, col) ∈ new) :
    getCol (addColumns t new) name = some col := by
  unfold getCol addColumns
  simp only
  rw [List.find?_append]
  have hfilter : (t.cols.filter
      (fun p => decide (p.1 ∉ new.map (fun q => q.1)))).find?
      (fun p => decide (p.1 = name)) = none := by
    rw [List.find?_eq_none]
    intro x hx hpx
    have hxf := List.of_mem_filter hx
    simp at hpx hxf
    rw [hpx] at hxf
    exact hxf col h
  rw [hfilter, find?_assoc_mem hnodup h]
  rfl

theorem getCol_eraseCol_self (t : Table) (c : Str) :
    getCol (eraseCol t c) c = none := by
  unfold getCol eraseCol
  simp only
  have hnone : (t.cols.filter (fun p => decide (p.1 ≠ c))).find?
      (fun p => decide (p.1 = c)) = none := by
    rw [List.find?_eq_none]
    intro x hx hpx
    have hxf := List.of_mem_filter hx
    simp at hpx hxf
    exact hxf hpx
  rw [hnone]
  rfl

theorem getCol_eraseCol_ne {t : Table} {c name : Str} (h : name ≠ c) :
    getCol (eraseCol t c) name = getCol t name := by
  unfold getCol eraseCol
  simp only
  rw [find?_filter_of_imp]
  intro x hpx
  simp at hpx
  simp [hpx, h]

theorem nrows_addColumns (t : Table) (new : List (Str × List Cell)) :
    (addColumns t new).nrows = t.nrows := rfl

theorem nrows_eraseCol (t : Table) (c : Str) : (eraseCol t c).nrows = t.nrows := rfl

theorem wellFormed_addColumns {t : Table} {new : List (Str × List Cell)}
    (hwf : wellFormed t) (hnew : ∀ p ∈ new, p.2.length = t.nrows) :
    wellFormed (addColumns t new) := by
  intro p hp
  rcases List.mem_append.mp hp with h1 | h1
  · exact hwf p (List.mem_of_mem_filter h1)
  · exact hnew p h1

theorem wellFormed_eraseCol {t : Table} {c : Str} (hwf : wellFormed t) :
    wellFormed (eraseCol t c) := by
  intro p hp
  exact hwf p (List.mem_of_mem_filter hp)

theorem getCol_length {t : Table} {name : Str} {col : List Cell}
    (hwf : wellFormed t) (h : getCol t name = some col) :
    col.length = t.nrows :=
  hwf (name, col) (getCol_mem h)

/-! ### Lemmas about first-occurrence deduplication -/

theorem mem_dedupFirstAux {α : Type _} [DecidableEq α] {x : α}
    (seen : List α) (l : List α) :
    x ∈ dedupFirstAux seen l ↔ x ∈ l ∧ x ∉ seen := by
  induction l generalizing seen with
  | nil => simp [dedupFirstAux]
  | cons a l ih =>
    by_cases ha : a ∈ seen
    · rw [dedupFirstAux, if_pos ha, ih]
      constructor
      · rintro ⟨h1, h2⟩; exact ⟨List.mem_cons_of_mem a h1, h2⟩
      · rintro ⟨h1, h2⟩
        rcases List.mem_cons.mp h1 with h3 | h3
        · exact absurd (h3 ▸ ha) h2
        · exact ⟨h3, h2⟩
    · rw [dedupFirstAux, if_neg ha]
      constructor
      · intro h
        rcases List.mem_cons.mp h with h1 | h1
        · exact ⟨h1 ▸ List.mem_cons_self a l, h1 ▸ ha⟩
        · rw [ih] at h1
          refine ⟨List.mem_cons_of_mem a h1.1, fun hc => h1.2 (List.mem_cons_of_mem a hc)⟩
      · rintro ⟨h1, h2⟩
        rcases List.mem_cons.mp h1 with h3 | h3
        · exact h3 ▸ List.mem_cons_self _ _
        · by_cases hxa : x = a
          · exact hxa ▸ List.mem_cons_self _ _
          · refine List.mem_cons_of_mem _ ((ih (a :: seen)).mpr ⟨h3, ?_⟩)
            intro hc
            rcases List.mem_cons.mp hc with h4 | h4
            · exact hxa h4
            · exact h2 h4

theorem mem_dedupFirst {α : Type _} [DecidableEq α] {x : α} (l : List α) :
    x ∈ dedupFirst l ↔ x ∈ l := by
  rw [dedupFirst, mem_dedupFirstAux]
  simp

theorem nodup_dedupFirstAux {α : Type _} [DecidableEq α]
    (seen : List α) (l : List α) : (dedupFirstAux seen l).Nodup := by
  induction l generalizing seen with
  | nil => simp [dedupFirstAux]
  | cons a l ih =>
    by_cases ha : a ∈ seen
    · rw [dedupFirstAux, if_pos ha]; exact ih seen
    · rw [dedupFirstAux, if_neg ha]
      refine List.nodup_cons.mpr ⟨?_, ih (a :: seen)⟩
      intro hc
      exact ((mem_dedupFirstAux (a :: seen) l).mp hc).2 (List.mem_cons_self a seen)

theorem nodup_dedupFirst {α : Type _} [DecidableEq α] (l : List α) :
    (dedupFirst l).Nodup := nodup_dedupFirstAux [] l

/-! ### Lemmas about splitting, trimming and joining -/

theorem splitOnChar_ne_nil (sep : Char) (s : Str) : splitOnChar sep s ≠ [] := by
  induction s with
  | nil => simp [splitOnChar]
  | cons c rest ih =>
    rw [splitOnChar]
    by_cases hc : c = sep
    · simp [hc]
    · simp only [hc, if_false]
      cases hr : splitOnChar sep rest <;> simp

theorem mem_splitOnChar_not_mem {sep : Char} {s tk : Str}
    (h : tk ∈ splitOnChar sep s) : sep ∉ tk := by
  induction s generalizing tk with
  | nil =>
    simp [splitOnChar] at h
    simp [h]
  | cons c rest ih =>
    rw [splitOnChar] at h
    by_cases hc : c = sep
    · simp only [hc, if_true] at h
      rcases List.mem_cons.mp h with h1 | h1
      · simp [h1]
      · exact ih h1
    · simp only [hc, if_false] at h
      cases hr : splitOnChar sep rest with
      | nil => exact absurd hr (splitOnChar_ne_nil sep rest)
      | cons hd tl =>
        rw [hr] at h
        rcases List.mem_cons.mp h with h1 | h1
        · subst h1
          intro hmem
          rcases List.mem_cons.mp hmem with h2 | h2
          · exact hc h2.symm
          · exact ih (hr ▸ List.mem_cons_self hd tl) h2
        · exact ih (hr ▸ List.mem_cons_of_mem hd h1)

theorem splitOnChar_of_not_mem {sep : Char} {s : Str} (h : sep ∉ s) :
    splitOnChar sep s = [s] := by
  induction s with
  | nil => rfl
  | cons c rest ih =>
    have hc : ¬c = sep := fun he => h (he ▸ List.mem_cons_self c rest)
    have hrest : sep ∉ rest := fun hm => h (List.mem_cons_of_mem c hm)
    rw [splitOnChar]
    simp only [hc, if_false, ih hrest]

theorem splitOnChar_append_sep {sep : Char} {xs ys : Str} (h : sep ∉ xs) :
    splitOnChar sep (xs ++ sep :: ys) = xs :: splitOnChar sep ys := by
  induction xs with
  | nil => simp [splitOnChar]
  | cons c xs ih =>
    have hc : ¬c = sep := fun he => h (he ▸ List.mem_cons_self c xs)
    have hxs : sep ∉ xs := fun hm => h (List.mem_cons_of_mem c hm)
    rw [List.cons_append, splitOnChar]
    simp only [hc, if_false, ih hxs]

theorem splitOnChar_intercalate {sep : Char} {names : List Str}
    (hne : names ≠ []) (h : ∀ x ∈ names, sep ∉ x) :
    splitOnChar sep (intercalateSep sep names) = names := by
  induction names with
  | nil => exact absurd rfl hne
  | cons s rest ih =>
    cases rest with
    | nil =>
      show splitOnChar sep s = [s]
      exact splitOnChar_of_not_mem (h s (List.mem_cons_self s []))
    | cons s2 rest2 =>
      show splitOnChar sep (s ++ sep :: intercalateSep sep (s2 :: rest2)) = s :: s2 :: rest2
      rw [splitOnChar_append_sep (h s (List.mem_cons_self _ _))]
      rw [ih (List.cons_ne_nil s2 rest2) (fun x hx => h x (List.mem_cons_of_mem s hx))]

theorem dropWhile_trim_eq (s : Str) : (trim s).dropWhile isWS = trim s := by
  cases htr : trim s with
  | nil => rfl
  | cons a rest =>
    obtain ⟨u, hu⟩ := List.rdropWhile_prefix isWS (s.dropWhile isWS)
    have hd : s.dropWhile isWS = a :: (rest ++ u) := by
      rw [← hu]
      show trim s ++ u = a :: (rest ++ u)
      rw [htr]
      rfl
    have hlen : 0 < (s.dropWhile isWS).length := by rw [hd]; simp
    have h1 : (s.dropWhile isWS)[0]? = some a := by rw [hd]; simp
    have h2 := List.dropWhile_get_zero_not isWS s hlen
    rw [List.get_eq_getElem] at h2
    have h4 := List.getElem?_eq_getElem hlen
    rw [h1] at h4
    rw [(Option.some.inj h4).symm] at h2
    simp [List.dropWhile_cons, h2]

theorem trim_trim (s : Str) : trim (trim s) = trim s := by
  show List.rdropWhile isWS ((trim s).dropWhile isWS) = trim s
  rw [dropWhile_trim_eq]
  exact List.rdropWhile_idempotent isWS (s.dropWhile isWS)

theorem mem_of_mem_trim {c : Char} {s : Str} (h : c ∈ trim s) : c ∈ s := by
  have h1 : c ∈ s.dropWhile isWS := by
    have hpre := List.rdropWhile_prefix isWS (s.dropWhile isWS)
    exact hpre.sublist.mem h
  exact ((List.dropWhile_suffix isWS).sublist).mem h1

theorem mem_tokenize {sep : Char} {s tk : Str} (h : tk ∈ tokenize sep s) :
    tk ≠ [] ∧ trim tk = tk ∧ sep ∉ tk := by
  unfold tokenize at h
  have h1 := List.mem_of_mem_filter h
  have h2 := List.of_mem_filter h
  simp only [decide_eq_true_eq] at h2
  obtain ⟨piece, hp, htk⟩ := List.mem_map.mp h1
  refine ⟨h2, ?_, ?_⟩
  · rw [← htk, trim_trim]
  · intro hmem
    rw [← htk] at hmem
    exact mem_splitOnChar_not_mem hp (mem_of_mem_trim hmem)

theorem tokenize_intercalate {sep : Char} {names : List Str}
    (hne : names ≠ []) (h : ∀ x ∈ names, x ≠ [] ∧ trim x = x ∧ sep ∉ x) :
    tokenize sep (intercalateSep sep names) = names := by
  unfold tokenize
  rw [splitOnChar_intercalate hne (fun x hx => (h x hx).2.2)]
  have hmap : names.map trim = names := by
    have hc := List.map_congr_left (l := names) (f := trim) (g := fun x => x)
      (fun x hx => (h x hx).2.1)
    simpa using hc
  rw [hmap]
  rw [List.filter_eq_self]
  intro a ha
  simpa using (h a ha).1

/-! ### Lemmas about observed tokens and indicator columns -/

theorem mem_foldr_append {α β : Type _} {f : α → List β} {l : List α} {x : β} :
    x ∈ (l.map f).foldr (· ++ ·) [] ↔ ∃ a ∈ l, x ∈ f a := by
  induction l with
  | nil => simp
  | cons a l ih => simp [ih]

theorem mem_observedTokens {sep : Char} {cells : List Cell} {tk : Str} :
    tk ∈ observedTokens sep cells ↔ ∃ cl ∈ cells, tk ∈ cellTokens sep cl := by
  rw [observedTokens, mem_dedupFirst, mem_foldr_append]

theorem mem_cellTokens_facts {sep : Char} {cl : Cell} {tk : Str}
    (h : tk ∈ cellTokens sep cl) : tk ≠ [] ∧ trim tk = tk ∧ sep ∉ tk := by
  cases cl with
  | str s => exact mem_tokenize h
  | na => simp [cellTokens] at h
  | num q => simp [cellTokens] at h
  | boolean b => simp [cellTokens] at h

theorem mem_observedTokens_facts {sep : Char} {cells : List Cell} {tk : Str}
    (h : tk ∈ observedTokens sep cells) : tk ≠ [] ∧ trim tk = tk ∧ sep ∉ tk := by
  obtain ⟨cl, _, htk⟩ := mem_observedTokens.mp h
  exact mem_cellTokens_facts htk

theorem dropWhile_append_all {α : Type _} {p : α → Bool} {l₁ l₂ : List α}
    (h : ∀ x ∈ l₁, p x = true) : (l₁ ++ l₂).dropWhile p = l₂.dropWhile p := by
  induction l₁ with
  | nil => rfl
  | cons a l ih =>
    rw [List.cons_append, List.dropWhile_cons]
    simp only [h a (List.mem_cons_self a l), if_true]
    exact ih (fun x hx => h x (List.mem_cons_of_mem a hx))

theorem stripOptName_indicator {c tk : Str} (hc : '_' ∉ c) :
    stripOptName (c ++ '_' :: tk) = tk := by
  unfold stripOptName
  have hdrop : (c ++ '_' :: tk).dropWhile (fun ch => decide (ch ≠ '_')) = '_' :: tk := by
    rw [dropWhile_append_all (fun x hx => by
      simp only [decide_eq_true_eq]
      exact fun he => hc (he ▸ hx))]
    rw [List.dropWhile_cons]
    simp
  rw [hdrop]
  rfl

theorem colIndicatorName_inj {pre : Option Str} {c tk₁ tk₂ : Str}
    (h : colIndicatorName pre c tk₁ = colIndicatorName pre c tk₂) : tk₁ = tk₂ := by
  unfold colIndicatorName at h
  have h2 := List.append_cancel_left h
  exact List.tail_eq_of_cons_eq h2

theorem cellAt_of_lt {col : List Cell} {i : Nat} (hi : i < col.length) :
    cellAt col i = col[i] := by
  unfold cellAt
  rw [List.getElem?_eq_getElem hi]
  rfl

theorem cellAt_map {f : Cell → Cell} {col : List Cell} {i : Nat}
    (hi : i < col.length) : cellAt (col.map f) i = f (cellAt col i) := by
  rw [cellAt_of_lt (by simpa using hi), cellAt_of_lt hi]
  simp

theorem cellAt_indicatorCol {sep : Char} {tk : Str} {cells : List Cell} {i : Nat}
    (hi : i < cells.length) :
    cellAt (indicatorCol sep tk cells) i =
      if tk ∈ cellTokens sep (cellAt cells i) then Cell.num 1 else Cell.num 0 := by
  unfold indicatorCol
  rw [cellAt_map hi]

theorem truthy_indicator {tk : Str} {T : List Str} :
    truthy (if tk ∈ T then Cell.num 1 else Cell.num 0) = decide (tk ∈ T) := by
  by_cases h : tk ∈ T <;> simp [h, truthy]

theorem getElem?_range_map {α : Type _} {f : Nat → α} {n i : Nat} (hi : i < n) :
    ((List.range n).map f)[i]? = some (f i) := by
  rw [List.getElem?_map]
  rw [List.getElem?_range hi]
  rfl

theorem indicatorCol_length (sep : Char) (tk : Str) (cells : List Cell) :
    (indicatorCol sep tk cells).length = cells.length := by
  unfold indicatorCol
  exact List.length_map cells _

/-! ### Claim C2: expansion into binary indicator columns -/

/-- Full functional specification of `expand_multiple_choice` on a table
containing the source column with data `cells`: the call succeeds; row
count is preserved and the result is well formed; every observed token
has its indicator column under its derived name; indicator values are 1
exactly where the row's token set contains the token (hence 0 on missing
rows); under non-colliding generated names the source column is dropped
iff `keep` is false, and all other columns are unchanged. -/
def ExpandSpec (t : Table) (c : Str) (sep : Char) (pre : Option Str)
    (keep : Bool) (cells : List Cell) : Prop :=
  ∃ res, expand_multiple_choice t c sep pre keep = Except.ok res ∧
    res.nrows = t.nrows ∧
    wellFormed res ∧
    (∀ tk ∈ observedTokens sep cells,
      getCol res (colIndicatorName pre c tk) = some (indicatorCol sep tk cells)) ∧
    (∀ tk, ∀ i < t.nrows,
      cellAt (indicatorCol sep tk cells) i =
        if tk ∈ cellTokens sep (cellAt cells i) then Cell.num 1 else Cell.num 0) ∧
    (∀ i < t.nrows, cellAt cells i = Cell.na →
      ∀ tk, cellAt (indicatorCol sep tk cells) i = Cell.num 0) ∧
    ((∀ tk ∈ observedTokens sep cells, colIndicatorName pre c tk ≠ c) →
      ((keep = false → getCol res c = none) ∧ (keep = true → getCol res c = some cells))) ∧
    (∀ name, name ≠ c →
      (∀ tk ∈ observedTokens sep cells, colIndicatorName pre c tk ≠ name) →
      getCol res name = getCol t name)

theorem expand_newCols_nodup (sep : Char) (pre : Option Str) (c : Str)
    (cells : List Cell) :
    (((observedTokens sep cells).map
      (fun tk => (colIndicatorName pre c tk, indicatorCol sep tk cells))).map
      (fun q => q.1)).Nodup := by
  rw [List.map_map]
  have hinj : ∀ a ∈ observedTokens sep cells, ∀ b ∈ observedTokens sep cells,
      colIndicatorName pre c a = colIndicatorName pre c b → a = b :=
    fun a _ b _ hab => colIndicatorName_inj hab
  exact List.Nodup.map_on hinj (nodup_dedupFirst _)

theorem not_mem_expand_names {sep : Char} {pre : Option Str} {c : Str}
    {cells : List Cell} {name : Str}
    (h : ∀ tk ∈ observedTokens sep cells, colIndicatorName pre c tk ≠ name) :
    name ∉ ((observedTokens sep cells).map
      (fun tk => (colIndicatorName pre c tk, indicatorCol sep tk cells))).map
      (fun q => q.1) := by
  intro hmem
  rw [List.map_map] at hmem
  obtain ⟨tk, htk, he⟩ := List.mem_map.mp hmem
  exact h tk htk he

/-- C2: `expand_multiple_choice` creates one binary indicator column per
distinct non-empty observed token, named from the prefix (or the source
column name) and the token, holding 1 exactly where a present row's token
set contains the token and 0 elsewhere (missing rows never get a 1); row
count and row order are unchanged and the source column is dropped unless
`keep_original` is true. -/
theorem expand_multiple_choice_spec (t : Table) (c : Str) (sep : Char)
    (pre : Option Str) (keep : Bool) (cells : List Cell)
    (hwf : wellFormed t) (hc : getCol t c = some cells) :
    ExpandSpec t c sep pre keep cells := by
  have hlen : cells.length = t.nrows := getCol_length hwf hc
  refine ⟨addColumns (if keep then t else eraseCol t c)
    ((observedTokens sep cells).map
      (fun tk => (colIndicatorName pre c tk, indicatorCol sep tk cells))),
    ?_, ?_, ?_, ?_, ?_, ?_, ?_, ?_⟩
  · simp only [expand_multiple_choice, hc]
  · rw [nrows_addColumns]
    cases keep <;> simp [nrows_eraseCol]
  · have hbase : wellFormed (if keep then t else eraseCol t c) := by
      cases keep
      · simpa using wellFormed_eraseCol (c := c) hwf
      · simpa using hwf
    refine wellFormed_addColumns hbase ?_
    intro p hp
    obtain ⟨tk, _, hpe⟩ := List.mem_map.mp hp
    rw [← hpe]
    show (indicatorCol sep tk cells).length = (if keep then t else eraseCol t c).nrows
    rw [indicatorCol_length, hlen]
    cases keep <;> simp [nrows_eraseCol]
  · intro tk htk
    exact getCol_addColumns_mem (expand_newCols_nodup sep pre c cells)
      (List.mem_map_of_mem _ htk)
  · intro tk i hi
    exact cellAt_indicatorCol (hlen ▸ hi)
  · intro i hi hna tk
    rw [cellAt_indicatorCol (hlen ▸ hi), hna]
    simp [cellTokens]
  · intro hfresh
    have hnm := not_mem_expand_names hfresh
    constructor
    · intro hkeep
      rw [getCol_addColumns_of_not_mem hnm, hkeep]
      simpa using getCol_eraseCol_self t c
    · intro hkeep
      rw [getCol_addColumns_of_not_mem hnm, hkeep]
      simpa using hc
  · intro name hname hfresh
    rw [getCol_addColumns_of_not_mem (not_mem_expand_names hfresh)]
    cases keep
    · simpa using getCol_eraseCol_ne hname
    · simp

/-- The colors scenario table of the spec and of the basic-expansion test. -/
def colorsTable : Table :=
  ⟨3, [(("id".toList), [Cell.num 1, Cell.num 2, Cell.num 3]),
       (("colors".toList),
        [Cell.str ("Blue,Green".toList), Cell.str ("Red".toList),
         Cell.str ("Blue,Red,Yellow".toList)])]⟩

theorem expand_multiple_choice_spec_witness :
    ExpandSpec colorsTable ("colors".toList) ',' none false
      [Cell.str ("Blue,Green".toList), Cell.str ("Red".toList),
       Cell.str ("Blue,Red,Yellow".toList)] :=
  expand_multiple_choice_spec _ _ _ _ _ _ (by decide) (by decide)

/-! ### Claim C1: expansion followed by collapse round-trips token sets -/

theorem collapse_ok {t : Table} {columns : List Str} {outCol : Str} {sep : Char}
    (hall : columns.all (fun c => (getCol t c).isSome) = true) :
    collapse_multiple_choice t columns outCol sep true =
      Except.ok (addColumns
        ⟨t.nrows, t.cols.filter (fun p => decide (p.1 ∉ columns))⟩
        [(outCol, (List.range t.nrows).map (fun i =>
          let ns := ((columns.map (fun c => (c, (getCol t c).getD []))).filter
            (fun p => truthy (cellAt p.2 i))).map (fun p => stripOptName p.1)
          if ns.isEmpty then Cell.na else Cell.str (intercalateSep sep ns)))]) := by
  rw [collapse_multiple_choice, if_pos hall]
  rfl

/-- Round-trip property: expanding a multi-select column and collapsing
the generated indicator columns back reproduces, per row, the same set of
tokens as the original cell, sending missing and zero-selection rows to
the missing sentinel. -/
def RoundTripSpec (t : Table) (c : Str) (sep : Char) (cells : List Cell) : Prop :=
  ∃ t1 t2 outCol,
    expand_multiple_choice t c sep none false = Except.ok t1 ∧
    collapse_multiple_choice t1
      ((observedTokens sep cells).map (fun tk => colIndicatorName none c tk))
      c sep true = Except.ok t2 ∧
    t2.nrows = t.nrows ∧
    getCol t2 c = some outCol ∧
    (∀ i < t.nrows,
      (∀ tk, tk ∈ cellTokens sep (cellAt outCol i) ↔ tk ∈ cellTokens sep (cellAt cells i)) ∧
      ((cellAt cells i = Cell.na ∨ cellTokens sep (cellAt cells i) = []) →
        cellAt outCol i = Cell.na))

/-- C1 (amended: the source column name must not contain an underscore):
collapsing the expansion reproduces each row's token set and maps
missing or zero-selection rows to the missing sentinel. -/
theorem collapse_expand_roundtrip (t : Table) (c : Str) (sep : Char)
    (cells : List Cell) (hwf : wellFormed t) (hc : getCol t c = some cells)
    (hund : '_' ∉ c) : RoundTripSpec t c sep cells := by
  have hlen : cells.length = t.nrows := getCol_length hwf hc
  set toks := observedTokens sep cells with htoks
  set newCols := toks.map
    (fun tk => (colIndicatorName none c tk, indicatorCol sep tk cells)) with hnewCols
  set t1 := addColumns (eraseCol t c) newCols with ht1
  set names := toks.map (fun tk => colIndicatorName none c tk) with hnames
  have hexp : expand_multiple_choice t c sep none false = Except.ok t1 := by
    simp only [expand_multiple_choice, hc, ht1, hnewCols, htoks]
    rfl
  have hget1 : ∀ tk ∈ toks, getCol t1 (colIndicatorName none c tk) =
      some (indicatorCol sep tk cells) := by
    intro tk htk
    rw [ht1, hnewCols]
    exact getCol_addColumns_mem (htoks ▸ expand_newCols_nodup sep none c cells)
      (List.mem_map_of_mem _ (htoks ▸ htk))
  have hall : names.all (fun nm => (getCol t1 nm).isSome) = true := by
    rw [List.all_eq_true]
    intro nm hnm
    obtain ⟨tk, htk, he⟩ := List.mem_map.mp (hnames ▸ hnm)
    rw [← he, hget1 tk htk]
    rfl
  have hcolsData : names.map (fun nm => (nm, (getCol t1 nm).getD [])) = newCols := by
    rw [hnames, List.map_map, hnewCols]
    apply List.map_congr_left
    intro tk htk
    simp only [Function.comp_apply]
    rw [hget1 tk htk]
    rfl
  have hn1 : t1.nrows = t.nrows := rfl
  set selToks : Nat → List Str :=
    fun i => toks.filter (fun tk => decide (tk ∈ cellTokens sep (cellAt cells i)))
    with hsel
  have hns : ∀ i, i < t.nrows →
      ((newCols.filter (fun p => truthy (cellAt p.2 i))).map
        (fun p => stripOptName p.1)) = selToks i := by
    intro i hi
    rw [hnewCols, List.filter_map, List.map_map]
    have hpred : ∀ tk ∈ toks,
        ((fun p => truthy (cellAt p.2 i)) ∘
          (fun tk => (colIndicatorName none c tk, indicatorCol sep tk cells))) tk =
        (fun tk => decide (tk ∈ cellTokens sep (cellAt cells i))) tk := by
      intro tk _
      simp only [Function.comp_apply]
      rw [cellAt_indicatorCol (hlen ▸ hi), truthy_indicator]
    rw [List.filter_congr hpred]
    have hmapid : ∀ tk ∈ toks.filter
        (fun tk => decide (tk ∈ cellTokens sep (cellAt cells i))),
        ((fun p => stripOptName p.1) ∘
          (fun tk => (colIndicatorName none c tk, indicatorCol sep tk cells))) tk = tk := by
      intro tk _
      simp only [Function.comp_apply]
      show stripOptName (c ++ '_' :: tk) = tk
      exact stripOptName_indicator hund
    rw [List.map_congr_left hmapid]
    show List.map id (toks.filter
      (fun tk => decide (tk ∈ cellTokens sep (cellAt cells i)))) = selToks i
    rw [List.map_id]
  have hsub : ∀ i, i < t.nrows → ∀ tk, tk ∈ cellTokens sep (cellAt cells i) → tk ∈ toks := by
    intro i hi tk htk
    rw [htoks]
    refine mem_observedTokens.mpr ⟨cellAt cells i, ?_, htk⟩
    rw [cellAt_of_lt (hlen ▸ hi)]
    exact List.getElem_mem _
  refine ⟨t1, _, (List.range t1.nrows).map (fun i =>
      let ns := ((names.map (fun nm => (nm, (getCol t1 nm).getD []))).filter
        (fun p => truthy (cellAt p.2 i))).map (fun p => stripOptName p.1)
      if ns.isEmpty then Cell.na else Cell.str (intercalateSep sep ns)),
    hexp, collapse_ok hall, rfl, ?_, ?_⟩
  · exact getCol_addColumns_mem (by simp) (List.mem_cons_self _ _)
  · intro i hi
    have hrow : cellAt ((List.range t1.nrows).map (fun i =>
        let ns := ((names.map (fun nm => (nm, (getCol t1 nm).getD []))).filter
          (fun p => truthy (cellAt p.2 i))).map (fun p => stripOptName p.1)
        if ns.isEmpty then Cell.na else Cell.str (intercalateSep sep ns))) i =
        (if (selToks i).isEmpty then Cell.na else
          Cell.str (intercalateSep sep (selToks i))) := by
      rw [cellAt, getElem?_range_map (hn1 ▸ hi)]
      simp only [Option.getD_some]
      rw [hcolsData, hns i hi]
    rw [hrow]
    by_cases hempty : (selToks i).isEmpty
    · rw [if_pos hempty]
      have hsel0 : selToks i = [] := List.isEmpty_iff.mp hempty
      have htok0 : cellTokens sep (cellAt cells i) = [] := by
        by_contra hne
        obtain ⟨tk, htk⟩ := List.exists_mem_of_ne_nil _ hne
        have : tk ∈ selToks i := by
          rw [hsel]
          exact List.mem_filter.mpr ⟨hsub i hi tk htk, by simpa using htk⟩
        rw [hsel0] at this
        simp at this
      constructor
      · intro tk
        rw [htok0]
        simp [cellTokens]
      · intro _
        rfl
    · rw [if_neg hempty]
      have hselne : selToks i ≠ [] := fun he => hempty (by rw [he]; rfl)
      have hfacts : ∀ x ∈ selToks i, x ≠ [] ∧ trim x = x ∧ sep ∉ x := by
        intro x hx
        have hxtoks : x ∈ toks := List.mem_of_mem_filter (hsel ▸ hx)
        exact mem_observedTokens_facts (htoks ▸ hxtoks)
      have htokjoin : cellTokens sep (Cell.str (intercalateSep sep (selToks i))) =
          selToks i := by
        show tokenize sep (intercalateSep sep (selToks i)) = selToks i
        exact tokenize_intercalate hselne hfacts
      constructor
      · intro tk
        rw [htokjoin, hsel]
        constructor
        · intro hmem
          have := List.mem_filter.mp hmem
          simpa using this.2
        · intro hmem
          exact List.mem_filter.mpr ⟨hsub i hi tk hmem, by simpa using hmem⟩
      · intro hcase
        exfalso
        have htok0 : cellTokens sep (cellAt cells i) = [] := by
          rcases hcase with h1 | h1
          · rw [h1]; rfl
          · exact h1
        apply hempty
        have : selToks i = [] := by
          rw [hsel]
          apply List.filter_eq_nil_iff.mpr
          intro a _
          rw [htok0]
          simp
        rw [this]
        rfl

theorem collapse_expand_roundtrip_witness :
    RoundTripSpec colorsTable ("colors".toList) ','
      [Cell.str ("Blue,Green".toList), Cell.str ("Red".toList),
       Cell.str ("Blue,Red,Yellow".toList)] :=
  collapse_expand_roundtrip _ _ _ _ (by decide) (by decide) (by decide)

/-- C1 counterexample to the unamended claim: with a source column whose
name itself contains an underscore, prefix stripping removes only the
part up to the first underscore, so the collapsed cell's token set
differs from the original cell's token set even though the separator
appears in no token. -/
theorem collapse_expand_roundtrip_cex :
    expand_multiple_choice (⟨1, [(("a_b".toList), [Cell.str ("X".toList)])]⟩ : Table)
        ("a_b".toList) ',' none false =
      Except.ok (⟨1, [(("a_b_X".toList), [Cell.num 1])]⟩ : Table) ∧
    collapse_multiple_choice (⟨1, [(("a_b_X".toList), [Cell.num 1])]⟩ : Table)
        [("a_b_X".toList)] ("a_b".toList) ',' true =
      Except.ok (⟨1, [(("a_b".toList), [Cell.str ("b_X".toList)])]⟩ : Table) ∧
    ("X".toList) ∈ cellTokens ',' (Cell.str ("X".toList)) ∧
    ("X".toList) ∉ cellTokens ',' (Cell.str ("b_X".toList)) := by
  exact ⟨by decide, by decide, by decide, by decide⟩

/-! ### Claims C3 and C6: response-range checking -/

theorem applyMask_map_self (p : Cell → Bool) (l : List Cell) :
    applyMask (l.map p) l = l.filter p := by
  induction l with
  | nil => rfl
  | cons a l ih =>
    rw [List.map_cons, applyMask, List.filter_cons]
    by_cases hp : p a = true
    · simp [hp, ih]
    · simp [hp, ih]

theorem applyMask_sublist (mask : List Bool) (l : List Cell) :
    List.Sublist (applyMask mask l) l := by
  induction l generalizing mask with
  | nil =>
    cases mask with
    | nil => exact List.Sublist.refl []
    | cons b bs => exact List.Sublist.refl []
  | cons a l ih =>
    cases mask with
    | nil => exact List.nil_sublist _
    | cons b bs =>
      rw [applyMask]
      by_cases hb : b
      · simp only [hb, if_true]
        exact List.Sublist.cons₂ a (ih bs)
      · have hb' : b = false := by simpa using hb
        simp only [hb', if_false]
        exact List.Sublist.cons a (ih bs)

theorem getCol_filterRows (t : Table) (keep : List Bool) (name : Str) :
    getCol (filterRows t keep) name = (getCol t name).map (applyMask keep) := by
  unfold getCol filterRows
  simp only
  induction t.cols with
  | nil => rfl
  | cons p l ih =>
    by_cases hp : p.1 = name
    · simp [List.find?_cons, hp]
    · simp only [List.map_cons, List.find?_cons, hp, decide_eq_false, Bool.false_eq_true,
        if_false]
      exact ih

/-- Full functional specification of `check_response_range` in `flag`
mode: the call succeeds and returns the input table extended with a
boolean `<column>_valid` column plus the invalid-row mask; validity is
missing-or-inclusively-in-range, and the mask is true exactly at present
out-of-range rows. -/
def RangeFlagSpec (t : Table) (c : Str) (minV maxV : ℚ) (cells : List Cell) : Prop :=
  ∃ res mask, check_response_range t c minV maxV hFlag = Except.ok (res, some mask) ∧
    res.nrows = t.nrows ∧
    mask.length = t.nrows ∧
    getCol res (validColName c) =
      some ((cells.map (cellValid minV maxV)).map Cell.boolean) ∧
    (∀ name, name ≠ validColName c → getCol res name = getCol t name) ∧
    (∀ i, i < t.nrows →
      (cellValid minV maxV (cellAt cells i) = true ↔
        (cellAt cells i = Cell.na ∨
          ∃ q, cellAt cells i = Cell.num q ∧ minV ≤ q ∧ q ≤ maxV))) ∧
    (∀ i, i < t.nrows →
      (mask[i]? = some true ↔
        (cellAt cells i ≠ Cell.na ∧ cellValid minV maxV (cellAt cells i) = false)))

/-- C3: `check_response_range` with `handle_invalid = "flag"` adds a
boolean `<column>_valid` column to the otherwise-unchanged input; a value
is valid iff missing or inclusively within the bounds, and the returned
invalid mask is true exactly where a present value is out of range. -/
theorem check_response_range_flag_spec (t : Table) (c : Str) (minV maxV : ℚ)
    (cells : List Cell) (hwf : wellFormed t) (hc : getCol t c = some cells) :
    RangeFlagSpec t c minV maxV cells := by
  have hlen : cells.length = t.nrows := getCol_length hwf hc
  refine ⟨addColumns t [(validColName c, (cells.map (cellValid minV maxV)).map Cell.boolean)],
    (cells.map (cellValid minV maxV)).map (fun b => !b), ?_, rfl, ?_, ?_, ?_, ?_, ?_⟩
  · simp only [check_response_range, hc]
    simp
  · simp [hlen]
  · exact getCol_addColumns_mem (by simp) (List.mem_cons_self _ _)
  · intro name hname
    refine getCol_addColumns_of_not_mem ?_
    simp [hname]
  · intro i hi
    cases h : cellAt cells i with
    | na => simp [cellValid, h]
    | str s => simp [cellValid, h]
    | boolean b => simp [cellValid, h]
    | num q =>
      simp only [cellValid, h, decide_eq_true_eq]
      constructor
      · intro hq
        exact Or.inr ⟨q, rfl, hq⟩
      · rintro (hq | ⟨q2, hq2, hle⟩)
        · exact absurd hq (by simp)
        · rw [Cell.num.injEq] at hq2
          exact hq2 ▸ hle
  · intro i hi
    have hilen : i < cells.length := hlen ▸ hi
    rw [List.getElem?_map, List.getElem?_map, List.getElem?_eq_getElem hilen]
    simp only [Option.map_some']
    rw [cellAt_of_lt hilen]
    constructor
    · intro hsome
      have hval : cellValid minV maxV cells[i] = false := by
        have := Option.some.inj hsome
        simpa using this
      refine ⟨?_, hval⟩
      intro hna
      rw [hna] at hval
      simp [cellValid] at hval
    · rintro ⟨_, hval⟩
      rw [hval]
      rfl

/-- The satisfaction scenario table of the spec (values 1,3,5,7,2 with
bounds 1..5). -/
def satisfactionTable : Table :=
  ⟨5, [(("satisfaction".toList),
    [Cell.num 1, Cell.num 3, Cell.num 5, Cell.num 7, Cell.num 2])]⟩

theorem check_response_range_flag_spec_witness :
    RangeFlagSpec satisfactionTable ("satisfaction".toList) 1 5
      [Cell.num 1, Cell.num 3, Cell.num 5, Cell.num 7, Cell.num 2] :=
  check_response_range_flag_spec _ _ _ _ _ (by decide) (by decide)

/-- Full functional specification of `check_response_range` in `remove`
mode: the call succeeds; the result keeps exactly the valid rows of every
column, in input order (a sublist of the original), and the row count is
the valid count, i.e. the input count minus the invalid count. -/
def RangeRemoveSpec (t : Table) (c : Str) (minV maxV : ℚ) (cells : List Cell) : Prop :=
  ∃ res, check_response_range t c minV maxV hRemove = Except.ok (res, none) ∧
    res.nrows = cells.countP (cellValid minV maxV) ∧
    res.nrows = t.nrows - cells.countP (fun cl => !cellValid minV maxV cl) ∧
    getCol res c = some (cells.filter (cellValid minV maxV)) ∧
    (∀ name col, getCol t name = some col →
      getCol res name = some (applyMask (cells.map (cellValid minV maxV)) col) ∧
      List.Sublist (applyMask (cells.map (cellValid minV maxV)) col) col)

/-- C6: `check_response_range` with `handle_invalid = "remove"` returns
exactly the rows whose value in the checked column is valid (missing or
inclusively in range); the row count shrinks by the number of invalid
rows and the relative order of retained rows is preserved. -/
theorem check_response_range_remove_spec (t : Table) (c : Str) (minV maxV : ℚ)
    (cells : List Cell) (hwf : wellFormed t) (hc : getCol t c = some cells) :
    RangeRemoveSpec t c minV maxV cells := by
  have hlen : cells.length = t.nrows := getCol_length hwf hc
  have hcount : (cells.map (cellValid minV maxV)).countP (fun b => b) =
      cells.countP (cellValid minV maxV) := by
    rw [List.countP_map]
    rfl
  refine ⟨filterRows t (cells.map (cellValid minV maxV)), ?_, ?_, ?_, ?_, ?_⟩
  · simp only [check_response_range, hc]
    simp
    decide
  · show (cells.map (cellValid minV maxV)).countP (fun b => b) = _
    exact hcount
  · show (cells.map (cellValid minV maxV)).countP (fun b => b) = _
    rw [hcount, ← hlen, List.length_eq_countP_add_countP (cellValid minV maxV) cells]
    simp
  · rw [getCol_filterRows, hc]
    simp only [Option.map_some']
    rw [applyMask_map_self]
  · intro name col hcol
    rw [getCol_filterRows, hcol]
    exact ⟨rfl, applyMask_sublist _ _⟩

theorem check_response_range_remove_spec_witness :
    RangeRemoveSpec satisfactionTable ("satisfaction".toList) 1 5
      [Cell.num 1, Cell.num 3, Cell.num 5, Cell.num 7, Cell.num 2] :=
  check_response_range_remove_spec _ _ _ _ _ (by decide) (by decide)

/-! ### Claims C4 and C5: straight-liner flagging -/

/-- C4: `flag_straight_liners` flags row `i` iff the number of distinct
non-missing values across the column block is at least 1 and at most
`threshold + 1`; a row entirely missing across the block (0 distinct
values) is never flagged, and a row with exactly one distinct non-missing
value is flagged at every threshold, hence at the default threshold 0
even if some of its entries are missing. -/
theorem flag_straight_liners_spec (t : Table) (cs : List Str) (th : Nat)
    (hcols : ∀ c ∈ cs, (getCol t c).isSome = true) :
    ∃ mask, flag_straight_liners t cs th = Except.ok mask ∧
      mask.length = t.nrows ∧
      (∀ i, i < t.nrows → (mask[i]? = some true ↔
        (1 ≤ rowBlockDistinct t cs i ∧ rowBlockDistinct t cs i ≤ th + 1))) ∧
      (∀ i, i < t.nrows → rowBlockDistinct t cs i = 0 → mask[i]? = some false) ∧
      (∀ i, i < t.nrows → rowBlockDistinct t cs i = 1 → mask[i]? = some true) := by
  refine ⟨(List.range t.nrows).map (fun i =>
      decide (1 ≤ rowBlockDistinct t cs i ∧ rowBlockDistinct t cs i ≤ th + 1)),
    ?_, ?_, ?_, ?_, ?_⟩
  · rw [flag_straight_liners, if_pos (List.all_eq_true.mpr hcols)]
  · simp
  · intro i hi
    rw [getElem?_range_map hi]
    simp
  · intro i hi h0
    rw [getElem?_range_map hi]
    simp [h0]
  · intro i hi h1
    rw [getElem?_range_map hi]
    have hle : 1 ≤ th + 1 := Nat.succ_le_succ (Nat.zero_le th)
    simp [h1, hle]

/-- The straight-liner scenario table {Q1:[3,5,3], Q2:[3,4,3], Q3:[3,3,3]}. -/
def straightTable : Table :=
  ⟨3, [(("Q1".toList), [Cell.num 3, Cell.num 5, Cell.num 3]),
       (("Q2".toList), [Cell.num 3, Cell.num 4, Cell.num 3]),
       (("Q3".toList), [Cell.num 3, Cell.num 3, Cell.num 3])]⟩

theorem flag_straight_liners_spec_witness :
    ∃ mask, flag_straight_liners straightTable
        [("Q1".toList), ("Q2".toList), ("Q3".toList)] 0 = Except.ok mask ∧
      mask.length = straightTable.nrows ∧
      (∀ i, i < straightTable.nrows → (mask[i]? = some true ↔
        (1 ≤ rowBlockDistinct straightTable [("Q1".toList), ("Q2".toList), ("Q3".toList)] i ∧
          rowBlockDistinct straightTable [("Q1".toList), ("Q2".toList), ("Q3".toList)] i ≤ 0 + 1))) ∧
      (∀ i, i < straightTable.nrows →
        rowBlockDistinct straightTable [("Q1".toList), ("Q2".toList), ("Q3".toList)] i = 0 →
        mask[i]? = some false) ∧
      (∀ i, i < straightTable.nrows →
        rowBlockDistinct straightTable [("Q1".toList), ("Q2".toList), ("Q3".toList)] i = 1 →
        mask[i]? = some true) :=
  flag_straight_liners_spec straightTable [("Q1".toList), ("Q2".toList), ("Q3".toList)] 0
    (by decide)

/-- C5 counterexample: on the spec's own scenario the data-model wording
(distinct count at most the threshold, default 0) yields the all-false
mask, while the operation flags the two straight-lined rows. -/
theorem straight_liner_mask_datamodel_cex :
    flag_straight_liners straightTable
        [("Q1".toList), ("Q2".toList), ("Q3".toList)] 0 =
      Except.ok [true, false, true] ∧
    straightMaskPerDataModel straightTable
        [("Q1".toList), ("Q2".toList), ("Q3".toList)] 0 =
      [false, false, false] := by
  exact ⟨by decide, by decide⟩

/-- C5 (amended): the mask produced by `flag_straight_liners` is true iff
the distinct non-missing value count of the row block is at least 1 and
at most `threshold + 1` (not at most `threshold` as the data-model
section words it). -/
theorem flag_straight_liners_mask_eq (t : Table) (cs : List Str) (th : Nat)
    (hcols : ∀ c ∈ cs, (getCol t c).isSome = true) :
    flag_straight_liners t cs th = Except.ok (straightMaskCorrected t cs th) := by
  rw [flag_straight_liners, if_pos (List.all_eq_true.mpr hcols)]
  rfl

theorem flag_straight_liners_mask_eq_witness :
    flag_straight_liners straightTable
        [("Q1".toList), ("Q2".toList), ("Q3".toList)] 0 =
      Except.ok (straightMaskCorrected straightTable
        [("Q1".toList), ("Q2".toList), ("Q3".toList)] 0) :=
  flag_straight_liners_mask_eq _ _ _ (by decide)

/-! ### Claim C7: speeder detection with a manual threshold -/

/-- C7: with an explicitly supplied threshold, `detect_speeders` flags
row `i` iff the value is present, numeric and strictly below the
threshold; a value equal to the threshold is not flagged, a missing value
is never flagged, and the `method` parameter has no effect on the
result. -/
theorem detect_speeders_manual_spec (t : Table) (c : Str) (thr : ℚ)
    (method : Str) (cells : List Cell) (hc : getCol t c = some cells) :
    ∃ mask, detect_speeders t c (some thr) method = Except.ok mask ∧
      mask.length = t.nrows ∧
      (∀ i, i < t.nrows → (mask[i]? = some true ↔
        ∃ q, cellAt cells i = Cell.num q ∧ q < thr)) ∧
      (∀ i, i < t.nrows → cellAt cells i = Cell.na → mask[i]? = some false) ∧
      (∀ i, i < t.nrows → cellAt cells i = Cell.num thr → mask[i]? = some false) ∧
      (∀ method2, detect_speeders t c (some thr) method2 =
        detect_speeders t c (some thr) method) := by
  refine ⟨speedMask cells thr t.nrows, ?_, ?_, ?_, ?_, ?_, ?_⟩
  · simp only [detect_speeders, hc]
  · simp [speedMask]
  · intro i hi
    unfold speedMask
    rw [getElem?_range_map hi]
    cases h : cellAt cells i with
    | na => simp [h]
    | str s => simp [h]
    | boolean b => simp [h]
    | num q =>
      simp only [h, Option.some.injEq, decide_eq_true_eq]
      constructor
      · intro hq
        exact ⟨q, rfl, hq⟩
      · rintro ⟨q2, hq2, hlt⟩
        rw [Cell.num.injEq] at hq2
        exact hq2 ▸ hlt
  · intro i hi hna
    unfold speedMask
    rw [getElem?_range_map hi]
    simp [hna]
  · intro i hi hthr
    unfold speedMask
    rw [getElem?_range_map hi]
    simp [hthr]
  · intro method2
    simp only [detect_speeders, hc]

/-- The completion-time scenario table {completion_time:
[120,45,300,30,180]}. -/
def speederTable : Table :=
  ⟨5, [(("completion_time".toList),
    [Cell.num 120, Cell.num 45, Cell.num 300, Cell.num 30, Cell.num 180])]⟩

theorem detect_speeders_manual_spec_witness :
    ∃ mask, detect_speeders speederTable ("completion_time".toList) (some 60) mIqr =
        Except.ok mask ∧
      mask.length = speederTable.nrows ∧
      (∀ i, i < speederTable.nrows → (mask[i]? = some true ↔
        ∃ q, cellAt [Cell.num 120, Cell.num 45, Cell.num 300, Cell.num 30, Cell.num 180] i =
          Cell.num q ∧ q < 60)) ∧
      (∀ i, i < speederTable.nrows →
        cellAt [Cell.num 120, Cell.num 45, Cell.num 300, Cell.num 30, Cell.num 180] i =
          Cell.na → mask[i]? = some false) ∧
      (∀ i, i < speederTable.nrows →
        cellAt [Cell.num 120, Cell.num 45, Cell.num 300, Cell.num 30, Cell.num 180] i =
          Cell.num 60 → mask[i]? = some false) ∧
      (∀ method2, detect_speeders speederTable ("completion_time".toList) (some 60) method2 =
        detect_speeders speederTable ("completion_time".toList) (some 60) mIqr) :=
  detect_speeders_manual_spec _ _ _ _ _ (by decide)

/-! ### Claims C8 and C10: missing-data patterns -/

/-- C8: each analyzed column's missing rate in the report equals its
missing count divided by the total row count, and `high_missing_cols`
contains exactly the analyzed columns whose missing rate strictly exceeds
the threshold (a rate equal to the threshold is excluded). -/
theorem detect_missing_patterns_spec (t : Table) (cs : List Str) (th : ℚ)
    (hcs : ∀ c ∈ cs, (getCol t c).isSome = true) :
    (detect_missing_patterns t (some cs) th).totalRows = t.nrows ∧
    (∀ c col, c ∈ cs → getCol t c = some col →
      (c, colMissingCount col) ∈ (detect_missing_patterns t (some cs) th).missingCounts ∧
      (c, (colMissingCount col : ℚ) / (t.nrows : ℚ)) ∈
        (detect_missing_patterns t (some cs) th).missingRates) ∧
    (∀ c, c ∈ (detect_missing_patterns t (some cs) th).highMissingCols ↔
      (c ∈ cs ∧ ∃ col, getCol t c = some col ∧
        (colMissingCount col : ℚ) / (t.nrows : ℚ) > th)) := by
  refine ⟨rfl, ?_, ?_⟩
  · intro c col hcmem hcol
    constructor
    · have hm : (c, colMissingCount ((getCol t c).getD [])) ∈
          cs.map (fun c => (c, colMissingCount ((getCol t c).getD []))) :=
        List.mem_map_of_mem (fun c => (c, colMissingCount ((getCol t c).getD []))) hcmem
      rw [hcol] at hm
      exact hm
    · have hm : (c, (colMissingCount ((getCol t c).getD []) : ℚ) / (t.nrows : ℚ)) ∈
          cs.map (fun c => (c, (colMissingCount ((getCol t c).getD []) : ℚ) / (t.nrows : ℚ))) :=
        List.mem_map_of_mem
          (fun c => (c, (colMissingCount ((getCol t c).getD []) : ℚ) / (t.nrows : ℚ))) hcmem
      rw [hcol] at hm
      exact hm
  · intro c
    show c ∈ cs.filter (fun c =>
      decide ((colMissingCount ((getCol t c).getD []) : ℚ) / (t.nrows : ℚ) > th)) ↔ _
    rw [List.mem_filter]
    constructor
    · rintro ⟨hmem, hpred⟩
      obtain ⟨col, hcol⟩ := Option.isSome_iff_exists.mp (hcs c hmem)
      refine ⟨hmem, col, hcol, ?_⟩
      rw [hcol] at hpred
      simpa using hpred
    · rintro ⟨hmem, col, hcol, hgt⟩
      refine ⟨hmem, ?_⟩
      rw [hcol]
      simpa using hgt

/-- The missing-pattern scenario table {Q1:[1,na,na,4], Q2:[1,2,na,4],
Q3:[1,2,3,4]} of the high-missing-threshold test. -/
def missingTable : Table :=
  ⟨4, [(("Q1".toList), [Cell.num 1, Cell.na, Cell.na, Cell.num 4]),
       (("Q2".toList), [Cell.num 1, Cell.num 2, Cell.na, Cell.num 4]),
       (("Q3".toList), [Cell.num 1, Cell.num 2, Cell.num 3, Cell.num 4])]⟩

theorem detect_missing_patterns_spec_witness :
    (detect_missing_patterns missingTable
      (some [("Q1".toList), ("Q2".toList), ("Q3".toList)]) (2/5)).totalRows =
        missingTable.nrows ∧
    (∀ c col, c ∈ [("Q1".toList), ("Q2".toList), ("Q3".toList)] →
      getCol missingTable c = some col →
      (c, colMissingCount col) ∈ (detect_missing_patterns missingTable
        (some [("Q1".toList), ("Q2".toList), ("Q3".toList)]) (2/5)).missingCounts ∧
      (c, (colMissingCount col : ℚ) / (missingTable.nrows : ℚ)) ∈
        (detect_missing_patterns missingTable
          (some [("Q1".toList), ("Q2".toList), ("Q3".toList)]) (2/5)).missingRates) ∧
    (∀ c, c ∈ (detect_missing_patterns missingTable
        (some [("Q1".toList), ("Q2".toList), ("Q3".toList)]) (2/5)).highMissingCols ↔
      (c ∈ [("Q1".toList), ("Q2".toList), ("Q3".toList)] ∧
        ∃ col, getCol missingTable c = some col ∧
          (colMissingCount col : ℚ) / (missingTable.nrows : ℚ) > 2/5)) :=
  detect_missing_patterns_spec _ _ _ (by decide)

/-- C10: the missing-pattern report counts every input row exactly once:
complete rows plus rows with at least one missing analyzed value equal
the total row count, which is the input row count. -/
theorem missing_patterns_row_count_invariant (t : Table)
    (columns : Option (List Str)) (th : ℚ) :
    (detect_missing_patterns t columns th).completeRows +
      (detect_missing_patterns t columns th).rowsWithMissing =
      (detect_missing_patterns t columns th).totalRows ∧
    (detect_missing_patterns t columns th).totalRows = t.nrows := by
  constructor
  · show (List.range t.nrows).countP
        (fun i => rowComplete t (columns.getD (colNames t)) i) +
      (List.range t.nrows).countP
        (fun i => !rowComplete t (columns.getD (colNames t)) i) = t.nrows
    have hsplit := (List.length_eq_countP_add_countP
      (fun i => rowComplete t (columns.getD (colNames t)) i) (List.range t.nrows)).symm
    rw [List.length_range] at hsplit
    have hconv : (List.range t.nrows).countP
        (fun a => decide (¬rowComplete t (columns.getD (colNames t)) a = true)) =
        (List.range t.nrows).countP
        (fun i => !rowComplete t (columns.getD (colNames t)) i) :=
      List.countP_congr (fun a _ => by
        cases h : rowComplete t (columns.getD (colNames t)) a <;> simp [h])
    rw [hconv] at hsplit
    exact hsplit
  · rfl

/-! ### Claim C9: row-level logical-consistency rules -/

/-- C9: if any rule lacks a condition, `check_logical_consistency` fails
with `MissingConditionError` and returns no partial result; otherwise the
result is the input table plus one boolean `consistent_<name>` column per
rule, whose entry at row `i` is the rule's predicate applied to row `i`
of the original input (rules are evaluated independently and never see
each other's output columns), with the row count unchanged. -/
theorem check_logical_consistency_spec (t : Table) (rules : List Rule)
    (hnames : (rules.map (fun r => consistentName r.name)).Nodup) :
    ((∃ r ∈ rules, r.condition = none) →
      check_logical_consistency t rules = Except.error TidyError.missingCondition) ∧
    ((∀ r ∈ rules, r.condition.isSome = true) →
      ∃ res, check_logical_consistency t rules = Except.ok res ∧
        res.nrows = t.nrows ∧
        (∀ r ∈ rules, ∀ p, r.condition = some p →
          getCol res (consistentName r.name) = some (ruleColumn t p) ∧
          ∀ i, i < t.nrows →
            (ruleColumn t p)[i]? = some (Cell.boolean (p (rowView t i)))) ∧
        (∀ name, (∀ r ∈ rules, consistentName r.name ≠ name) →
          getCol res name = getCol t name)) := by
  constructor
  · rintro ⟨r, hr, hnone⟩
    rw [check_logical_consistency, if_neg]
    intro hall
    have := List.all_eq_true.mp hall r hr
    rw [hnone] at this
    simp at this
  · intro hall
    have hnodup : ((rules.map (fun r =>
        (consistentName r.name, ruleColumn t (r.condition.getD (fun _ => true))))).map
        (fun q => q.1)).Nodup := by
      rw [List.map_map]
      exact hnames
    refine ⟨addColumns t (rules.map (fun r =>
      (consistentName r.name, ruleColumn t (r.condition.getD (fun _ => true))))),
      ?_, rfl, ?_, ?_⟩
    · rw [check_logical_consistency, if_pos (List.all_eq_true.mpr hall)]
    · intro r hr p hp
      constructor
      · have hm : (consistentName r.name, ruleColumn t (r.condition.getD (fun _ => true))) ∈
            rules.map (fun r =>
              (consistentName r.name, ruleColumn t (r.condition.getD (fun _ => true)))) :=
          List.mem_map_of_mem _ hr
        rw [hp] at hm
        exact getCol_addColumns_mem hnodup hm
      · intro i hi
        unfold ruleColumn
        rw [getElem?_range_map hi]
    · intro name hname
      refine getCol_addColumns_of_not_mem ?_
      intro hmem
      rw [List.map_map] at hmem
      obtain ⟨r, hr, he⟩ := List.mem_map.mp hmem
      exact hname r hr he

/-- The age-consistency scenario: one rule over an age column. -/
def ageTable : Table :=
  ⟨3, [(("age".toList), [Cell.num 25, Cell.num 30, Cell.num 20])]⟩

/-- A concrete consistency rule: age at least 23. -/
def ageRule : Rule :=
  ⟨("age_ok".toList),
   some (fun row =>
     match row ("age".toList) with
     | some (Cell.num a) => decide (a ≥ 23)
     | _ => false),
   [("age".toList)]⟩

theorem check_logical_consistency_spec_witness :
    ((∃ r ∈ [ageRule], r.condition = none) →
      check_logical_consistency ageTable [ageRule] =
        Except.error TidyError.missingCondition) ∧
    ((∀ r ∈ [ageRule], r.condition.isSome = true) →
      ∃ res, check_logical_consistency ageTable [ageRule] = Except.ok res ∧
        res.nrows = ageTable.nrows ∧
        (∀ r ∈ [ageRule], ∀ p, r.condition = some p →
          getCol res (consistentName r.name) = some (ruleColumn ageTable p) ∧
          ∀ i, i < ageTable.nrows →
            (ruleColumn ageTable p)[i]? = some (Cell.boolean (p (rowView ageTable i)))) ∧
        (∀ name, (∀ r ∈ [ageRule], consistentName r.name ≠ name) →
          getCol res name = getCol ageTable name)) :=
  check_logical_consistency_spec ageTable [ageRule] (by decide)
